import Mathlib

/-!
Verification of the external sort-merge deduplication engine of
`github.com/veqryn/dedup` (file `dedup.go`), as a shallow embedding.

A record is one input line, modelled as its list of bytes (`List Nat`).
The byte-lexicographic comparison used by Go's `string` ordering
(`sort.Strings`, `token <`) is modelled by `recLe` / strict `rlt`.

`splitSortDeduplicate` (Go lines 155-274) is modelled by `splitLoop`:
one call of `splitLoop` is one iteration of the Go `for` loop.  The Go
loop can fail to terminate (when the last input line and the empty
string both match a skip pattern), so the model takes a fuel parameter
and returns `none` when the fuel runs out; every claim about a completed
run is conditioned on the loop returning `some`.

The `bufio.Scanner` is modelled by the pair (`token`, `rest`):
`scanner.Text()` is `token`, and a call of `scanner.Scan()` moves the
head of `rest` into `token`, or — faithful to `bufio.Scanner`, which
sets the token to `nil` at EOF — sets `token := []` and returns `false`
when `rest` is empty.

The k-way merge (`mergeChunks` / `mergeSortableScanners`, Go lines
327-428) is modelled by `seedScanners` / `mergeLoopF`.  The Go code
sorts the scanner slice with an unstable sort on `token <`; the model
uses `insertionSort` on `recLe`, one permitted resolution of the
tie-break that the sort leaves unspecified.  The merge always
terminates; `mergeLoopF` carries a fuel argument that `mergeScanners`
instantiates with the exact number of remaining records (`msMeasure`).

Machine integers: Go's `uint64` byte counters are modelled by `Nat`.
Wrap-around cannot occur on any run that fits in a real address space
(the counter is bounded by the total input size), so no `% 2 ^ 64`
reduction is inserted.
-/

namespace DedupGo

/-- A record: one newline-delimited input line, as its sequence of bytes. -/
abbrev Record := List Nat

/-- A compiled skip pattern, abstracted to its matching function
(the Go code receives pre-compiled `*regexp.Regexp` values and only
calls `pattern.MatchString`). -/
abbrev Matcher := Record → Bool

/-- `skipPatterns` test of Go lines 191-196: does any pattern match? -/
def matchesAny (pats : List Matcher) (r : Record) : Bool :=
  pats.any fun p => p r

/-- Byte-lexicographic `≤` on records, as Go compares `string`s. -/
def recLe : Record → Record → Bool
  | [], _ => true
  | _ :: _, [] => false
  | a :: as, b :: bs =>
    if a < b then true else if b < a then false else recLe as bs

/-- Propositional form of `recLe`. -/
def rle (a b : Record) : Prop := recLe a b = true

/-- Strict byte-lexicographic order on records. -/
def rlt (a b : Record) : Prop := rle a b ∧ a ≠ b

instance : DecidableRel rle := fun a b => by
  unfold rle; infer_instance

instance : DecidableRel rlt := fun a b => by
  unfold rlt; infer_instance

theorem recLe_refl (a : Record) : rle a a := by
  induction a with
  | nil => rfl
  | cons x xs ih => simp [rle, recLe] at ih ⊢; exact ih

theorem recLe_total (a b : Record) : rle a b ∨ rle b a := by
  induction a generalizing b with
  | nil => exact Or.inl rfl
  | cons x xs ih =>
    cases b with
    | nil => exact Or.inr rfl
    | cons y ys =>
      rcases Nat.lt_trichotomy x y with h | h | h
      · left; simp [rle, recLe, h]
      · subst h
        rcases ih ys with h' | h' <;>
          simp [rle, recLe, lt_irrefl] at h' ⊢ <;> [left; right] <;> exact h'
      · right; simp [rle, recLe, h]

theorem recLe_antisymm {a b : Record} (h₁ : rle a b) (h₂ : rle b a) : a = b := by
  induction a generalizing b with
  | nil =>
    cases b with
    | nil => rfl
    | cons y ys => simp [rle, recLe] at h₂
  | cons x xs ih =>
    cases b with
    | nil => simp [rle, recLe] at h₁
    | cons y ys =>
      rcases Nat.lt_trichotomy x y with h | h | h
      · simp [rle, recLe, h, Nat.lt_asymm h] at h₂
      · subst h
        simp [rle, recLe, lt_irrefl] at h₁ h₂
        simp [ih h₁ h₂]
      · simp [rle, recLe, h, Nat.lt_asymm h] at h₁

theorem recLe_trans {a b c : Record} (h₁ : rle a b) (h₂ : rle b c) : rle a c := by
  induction a generalizing b c with
  | nil => rfl
  | cons x xs ih =>
    cases b with
    | nil => simp [rle, recLe] at h₁
    | cons y ys =>
      cases c with
      | nil => simp [rle, recLe] at h₂
      | cons z zs =>
        rcases Nat.lt_trichotomy x y with hxy | hxy | hxy
        · rcases Nat.lt_trichotomy y z with hyz | hyz | hyz
          · simp [rle, recLe, Nat.lt_trans hxy hyz]
          · subst hyz; simp [rle, recLe, hxy]
          · simp [rle, recLe, hyz, Nat.lt_asymm hyz] at h₂
        · subst hxy
          rcases Nat.lt_trichotomy x z with hyz | hyz | hyz
          · simp [rle, recLe, hyz]
          · subst hyz
            simp [rle, recLe, lt_irrefl] at h₁ h₂ ⊢
            exact ih h₁ h₂
          · simp [rle, recLe, hyz, Nat.lt_asymm hyz] at h₂
        · simp [rle, recLe, hxy, Nat.lt_asymm hxy] at h₁

instance : IsTotal Record rle := ⟨recLe_total⟩
instance : IsTrans Record rle := ⟨fun _ _ _ => recLe_trans⟩
instance : IsAntisymm Record rle := ⟨fun _ _ => recLe_antisymm⟩
instance : IsRefl Record rle := ⟨recLe_refl⟩

theorem rlt_of_rle_of_ne {a b : Record} (h : rle a b) (hne : a ≠ b) : rlt a b :=
  ⟨h, hne⟩

theorem rle_of_rlt {a b : Record} (h : rlt a b) : rle a b := h.1

theorem ne_of_rlt {a b : Record} (h : rlt a b) : a ≠ b := h.2

theorem rle_rlt_trans {a b c : Record} (h₁ : rle a b) (h₂ : rlt b c) : rlt a c := by
  refine ⟨recLe_trans h₁ h₂.1, ?_⟩
  rintro rfl
  exact h₂.2 (recLe_antisymm h₂.1 h₁)

theorem rlt_rle_trans {a b c : Record} (h₁ : rlt a b) (h₂ : rle b c) : rlt a c := by
  refine ⟨recLe_trans h₁.1 h₂, ?_⟩
  rintro rfl
  exact h₁.2 (recLe_antisymm h₁.1 h₂)

/-- Serialized size of a record: its bytes plus one delimiter
(`uint64(len(line)) + 1`, Go lines 220 and 224). -/
def recSize (r : Record) : Nat := r.length + 1

/-- `set[line] = struct{}{}` of Go line 199: the Go `map` keyed by the
record, modelled as the list of distinct keys in insertion order (only
the key set matters; `sortKeys` sorts it before any write). -/
def insertRec (set : List Record) (r : Record) : List Record :=
  if r ∈ set then set else set ++ [r]

/-- `sortKeys` of Go lines 277-288: the keys of the set, sorted with
`sort.Strings` — i.e. the byte-lexicographically sorted enumeration. -/
def sortKeys (set : List Record) : List Record :=
  set.insertionSort rle

/-- Serialization written by `writeSlice` (Go lines 291-324): each
record followed by the `'\n'` delimiter (byte 10). -/
def serializeRecords (rs : List Record) : List Nat :=
  rs.foldr (fun r acc => r ++ 10 :: acc) []

@[simp] theorem mem_insertRec {set : List Record} {r a : Record} :
    a ∈ insertRec set r ↔ a ∈ set ∨ a = r := by
  unfold insertRec
  split
  · rename_i h
    constructor
    · exact Or.inl
    · rintro (h' | rfl) <;> [exact h'; exact h]
  · simp

theorem insertRec_nodup {set : List Record} (h : set.Nodup) (r : Record) :
    (insertRec set r).Nodup := by
  unfold insertRec
  split
  · exact h
  · rename_i hmem
    simpa [List.nodup_append, hmem] using h

theorem insertRec_ne_nil (set : List Record) (r : Record) :
    insertRec set r ≠ [] := by
  unfold insertRec
  split
  · rename_i h
    rintro rfl
    simp at h
  · simp

theorem sortKeys_perm (set : List Record) : List.Perm (sortKeys set) set :=
  List.perm_insertionSort _ _

@[simp] theorem mem_sortKeys {set : List Record} {a : Record} :
    a ∈ sortKeys set ↔ a ∈ set :=
  (sortKeys_perm set).mem_iff

theorem sortKeys_sorted (set : List Record) : List.Sorted rle (sortKeys set) :=
  List.sorted_insertionSort rle set

theorem sortKeys_ne_nil {set : List Record} (h : set ≠ []) : sortKeys set ≠ [] := by
  intro hc
  exact h (List.eq_nil_of_length_eq_zero (by
    simpa [hc] using (sortKeys_perm set).length_eq.symm))

theorem sortKeys_sorted_strict {set : List Record} (h : set.Nodup) :
    List.Sorted rlt (sortKeys set) := by
  have hs : List.Pairwise rle (sortKeys set) := sortKeys_sorted set
  have hn : (sortKeys set).Nodup := ((sortKeys_perm set).nodup_iff).mpr h
  exact (hs.and hn).imp fun hab => ⟨hab.1, hab.2⟩

theorem sorted_rle_of_rlt {l : List Record} (h : List.Sorted rlt l) :
    List.Sorted rle l :=
  h.imp fun hab => hab.1

theorem nodup_of_sorted_rlt {l : List Record} (h : List.Sorted rlt l) :
    l.Nodup :=
  h.imp fun hab => hab.2

/-- Two strictly sorted lists with the same members are equal. -/
theorem sorted_rlt_ext {l₁ l₂ : List Record}
    (h₁ : List.Sorted rlt l₁) (h₂ : List.Sorted rlt l₂)
    (hmem : ∀ a, a ∈ l₁ ↔ a ∈ l₂) : l₁ = l₂ := by
  have hp : List.Perm l₁ l₂ :=
    (List.perm_ext_iff_of_nodup (nodup_of_sorted_rlt h₁)
      (nodup_of_sorted_rlt h₂)).mpr hmem
  exact List.eq_of_perm_of_sorted hp (sorted_rle_of_rlt h₁) (sorted_rle_of_rlt h₂)

end DedupGo

namespace DedupGo

/-- The mutable state of one iteration of the read loop of
`splitSortDeduplicate` (Go lines 166-248).  `token`/`rest` model the
`bufio.Scanner` (see the file comment); `set`, `bytesUsed`,
`previousLen` and `chunks` are the local variables of the same names
(`chunks` holds the *contents* written to each already-spilled chunk
file, in creation order). -/
structure SplitState where
  token : Record
  rest : List Record
  set : List Record
  bytesUsed : Nat
  previousLen : Nat
  chunks : List (List Record)

/-- One call = one iteration of the `loop` of Go lines 182-248.
`line := scanner.Text()` is `st.token`; `hasNext = scanner.Scan()` is
the match on `st.rest` (empty ⇒ `hasNext = false` and the token becomes
`[]`, as `bufio.Scanner` leaves a `nil` token at EOF).  Returns the
spilled chunks and the final set at `break loop`, or `none` if the fuel
runs out (the Go loop does not terminate from a state this model keeps
re-entering). -/
def splitLoop (T : Nat) (pats : List Matcher) :
    Nat → SplitState → Option (List (List Record) × List Record)
  | 0, _ => none
  | fuel + 1, st =>
    match st.rest with
    | [] =>
      -- hasNext = false, scanner token becomes []
      if matchesAny pats st.token then
        -- `continue loop` on the final token (Go lines 191-196)
        splitLoop T pats fuel ⟨[], [], st.set, st.bytesUsed, st.previousLen, st.chunks⟩
      else
        -- add to the set, then `break loop` (Go lines 199-211)
        some (st.chunks, insertRec st.set st.token)
    | tok :: rest' =>
      -- hasNext = true, scanner token becomes `tok` (the next line)
      if matchesAny pats st.token then
        splitLoop T pats fuel ⟨tok, rest', st.set, st.bytesUsed, st.previousLen, st.chunks⟩
      else
        let set' := insertRec st.set st.token
        let currentLen := set'.length
        if st.previousLen < currentLen then
          -- new distinct record: count its bytes (Go lines 219-220)
          let bytes' := st.bytesUsed + recSize st.token
          if T < bytes' + recSize tok then
            -- spill: sort and write the set, reset counters (Go lines 224-243)
            splitLoop T pats fuel ⟨tok, rest', [], 0, 0, st.chunks ++ [sortKeys set']⟩
          else
            splitLoop T pats fuel ⟨tok, rest', set', bytes', currentLen, st.chunks⟩
        else
          -- re-seen duplicate: counters unchanged (Go lines 244-246)
          splitLoop T pats fuel ⟨tok, rest', set', st.bytesUsed, currentLen, st.chunks⟩

/-- `splitSortDeduplicate` (Go lines 155-274): returns the contents of
every chunk file written, in order.  The last element is the final
chunk (Go lines 257-273) — the destination file itself when nothing was
spilled (direct path), a temporary file otherwise.  An empty input
returns no chunks (Go lines 176-179). -/
def splitSortDeduplicate (T : Nat) (pats : List Matcher) (input : List Record)
    (fuel : Nat) : Option (List (List Record)) :=
  match input with
  | [] => some []
  | l :: ls =>
    match splitLoop T pats fuel ⟨l, ls, [], 0, 0, []⟩ with
    | none => none
    | some (cs, fs) => some (cs ++ [sortKeys fs])

/-- The records the read loop inserts into the set over a whole
terminating run: the input lines that match no skip pattern — plus, if
the *last* input line matches a skip pattern, one empty record, because
the loop then runs once more on the scanner's empty EOF token (Go's
`scanner.Text()` after `Scan` returned false) and inserts it. -/
def admittedRecords (pats : List Matcher) (input : List Record) : List Record :=
  match input.getLast? with
  | none => []
  | some l =>
    input.filter (fun r => !matchesAny pats r) ++
      (if matchesAny pats l then [([] : Record)] else [])

example :
    splitSortDeduplicate 100 [] [[98], [97], [98]] 10 =
      some [[[97], [98]]] := by decide

example :
    splitSortDeduplicate 4 [] [[97], [98], [99]] 10 =
      some [[[97], [98]], [[99]]] := by decide

example :
    admittedRecords [fun r => decide (r = [97])] [[98], [97]] = [[98], []] := by
  decide

end DedupGo

namespace DedupGo

/-- `sortableScanner` (Go lines 433-437): the current token plus the
not-yet-scanned remainder of one chunk file. -/
structure MScanner where
  token : Record
  rest : List Record
deriving DecidableEq

/-- All records a scanner will still deliver, current token first. -/
def MScanner.stream (s : MScanner) : List Record := s.token :: s.rest

/-- Scanner comparison used by `sort.Slice` (Go lines 368-370). -/
def scLe (a b : MScanner) : Prop := rle a.token b.token

instance : DecidableRel scLe := fun a b => by unfold scLe; infer_instance
instance : IsTotal MScanner scLe := ⟨fun a b => recLe_total a.token b.token⟩
instance : IsTrans MScanner scLe := ⟨fun _ _ _ => recLe_trans⟩

/-- `sort.Slice(scanners, sortScanners)` (Go line 386), performed only
when more than one scanner remains (Go line 385).  The Go sort is
unstable; `insertionSort` is one permitted order among equal tokens. -/
def sortIfMany (ss : List MScanner) : List MScanner :=
  if 1 < ss.length then ss.insertionSort scLe else ss

/-- Number of records the merge loop still has to consume — one loop
iteration consumes exactly one, so this bounds (exactly) the number of
iterations. -/
def msMeasure (ss : List MScanner) : Nat :=
  (ss.map fun s => s.rest.length + 1).sum

/-- The merge loop of `mergeSortableScanners` (Go lines 383-423): sort
the scanners, write the least token unless it equals the previously
written line, advance that scanner, drop it if exhausted.  `prev`
models the pair `previousLine`/`hasPrevious` (`none` = nothing written
yet).  Fuel-indexed; `msMeasure` fuel always suffices. -/
def mergeLoopF : Nat → List MScanner → Option Record → List Record
  | _, [], _ => []
  | 0, _ :: _, _ => []
  | fuel + 1, s₀ :: ss₀, prev =>
    match sortIfMany (s₀ :: ss₀) with
    | [] => []
    | s :: rest =>
      let out : List Record := if prev = some s.token then [] else [s.token]
      match s.rest with
      | [] => out ++ mergeLoopF fuel rest (some s.token)
      | r :: rs => out ++ mergeLoopF fuel (⟨r, rs⟩ :: rest) (some s.token)

/-- `mergeSortableScanners` (Go lines 366-428). -/
def mergeScanners (ss : List MScanner) : List Record :=
  mergeLoopF (msMeasure ss) ss none

/-- The seeding loop of `mergeChunks` (Go lines 329-355): one scanner
per chunk, advanced to its first record; a chunk with no content makes
the Go code panic, modelled as `none`. -/
def seedScanners : List (List Record) → Option (List MScanner)
  | [] => some []
  | [] :: _ => none
  | (r :: rs) :: cs => (seedScanners cs).map (⟨r, rs⟩ :: ·)

/-- `mergeChunks` (Go lines 327-358). -/
def mergeChunks (chunks : List (List Record)) : Option (List Record) :=
  (seedScanners chunks).map mergeScanners

/-- The destination file's contents after `Dedup` (Go lines 54-112)
returns nil: `none` models an error or a non-terminating run.  With at
most one chunk the merge is skipped (Go lines 104-108) — the single
chunk, when present, is the destination itself, already written by the
direct path of `splitSortDeduplicate`. -/
def dedupOutput (T : Nat) (pats : List Matcher) (input : List Record)
    (fuel : Nat) : Option (List Record) :=
  match splitSortDeduplicate T pats input fuel with
  | none => none
  | some [] => some []
  | some [c] => some c
  | some cs => mergeChunks cs

example : dedupOutput 4 [] [[98], [97], [99], [98]] 10 =
    some [[97], [98], [99]] := by decide

example : dedupOutput 1000 [] [[98], [97], [99], [98]] 10 =
    some [[97], [98], [99]] := by decide

end DedupGo


namespace DedupGo

theorem exists_mem_append {cs : List (List Record)} {x : List Record} {r : Record} :
    (∃ c ∈ cs ++ [x], r ∈ c) ↔ (∃ c ∈ cs, r ∈ c) ∨ r ∈ x := by
  constructor
  · rintro ⟨c, hc, hrc⟩
    rcases List.mem_append.1 hc with h | h
    · exact Or.inl ⟨c, h, hrc⟩
    · rw [List.mem_singleton] at h
      subst h
      exact Or.inr hrc
  · rintro (⟨c, hc, hrc⟩ | hx)
    · exact ⟨c, List.mem_append_left _ hc, hrc⟩
    · exact ⟨x, List.mem_append_right _ (List.mem_singleton.2 rfl), hx⟩

theorem admittedRecords_nil_token (pats : List Matcher) :
    admittedRecords pats [[]] = [[]] := by
  cases h : matchesAny pats [] <;>
    simp [admittedRecords, List.filter, h]

theorem admittedRecords_single_skip {pats : List Matcher} {t : Record}
    (h : matchesAny pats t = true) :
    admittedRecords pats [t] = [[]] := by
  simp [admittedRecords, List.filter, h]

theorem admittedRecords_single_keep {pats : List Matcher} {t : Record}
    (h : matchesAny pats t = false) :
    admittedRecords pats [t] = [t] := by
  simp [admittedRecords, List.filter, h]

theorem admittedRecords_cons_skip {pats : List Matcher} {t tok : Record}
    {rest : List Record} (h : matchesAny pats t = true) :
    admittedRecords pats (t :: tok :: rest) = admittedRecords pats (tok :: rest) := by
  rcases e : (tok :: rest).getLast? with _ | l
  · rw [List.getLast?_eq_none_iff] at e
    exact absurd e (List.cons_ne_nil _ _)
  · simp [admittedRecords, List.getLast?_cons_cons, e, h]

theorem admittedRecords_cons_keep {pats : List Matcher} {t tok : Record}
    {rest : List Record} (h : matchesAny pats t = false) :
    admittedRecords pats (t :: tok :: rest) = t :: admittedRecords pats (tok :: rest) := by
  rcases e : (tok :: rest).getLast? with _ | l
  · rw [List.getLast?_eq_none_iff] at e
    exact absurd e (List.cons_ne_nil _ _)
  · simp [admittedRecords, List.getLast?_cons_cons, e, h]

/-- Membership characterization of a terminating run of the read loop:
a record ends up in the final set or in some spilled chunk exactly when
it is already in the working set, already in a spilled chunk, or is
admitted during the remaining iterations. -/
theorem splitLoop_mem (T : Nat) (pats : List Matcher) :
    ∀ (fuel : Nat) (t : Record) (rest set : List Record) (bytes prev : Nat)
      (chunks cs : List (List Record)) (fs : List Record),
      splitLoop T pats fuel ⟨t, rest, set, bytes, prev, chunks⟩ = some (cs, fs) →
      ∀ r, (r ∈ fs ∨ ∃ c ∈ cs, r ∈ c) ↔
        (r ∈ set ∨ (∃ c ∈ chunks, r ∈ c) ∨ r ∈ admittedRecords pats (t :: rest)) := by
  intro fuel
  induction fuel with
  | zero => intro t rest set bytes prev chunks cs fs h; simp [splitLoop] at h
  | succ fuel ih =>
    intro t rest set bytes prev chunks cs fs h r
    match rest with
    | [] =>
      cases hm : matchesAny pats t with
      | true =>
        simp only [splitLoop, hm, if_true] at h
        rw [ih _ _ _ _ _ _ _ _ h r, admittedRecords_single_skip hm,
          admittedRecords_nil_token]
      | false =>
        simp only [splitLoop, hm, Bool.false_eq_true, if_false] at h
        cases h
        rw [admittedRecords_single_keep hm]
        simp only [mem_insertRec, List.mem_singleton]
        itauto
    | tok :: rest' =>
      cases hm : matchesAny pats t with
      | true =>
        simp only [splitLoop, hm, if_true] at h
        rw [ih _ _ _ _ _ _ _ _ h r, admittedRecords_cons_skip hm]
      | false =>
        simp only [splitLoop, hm, Bool.false_eq_true, if_false] at h
        rw [admittedRecords_cons_keep hm, List.mem_cons]
        by_cases hlen : prev < (insertRec set t).length
        · rw [if_pos hlen] at h
          by_cases hspill : T < bytes + recSize t + recSize tok
          · rw [if_pos hspill] at h
            rw [ih _ _ _ _ _ _ _ _ h r, exists_mem_append]
            simp only [List.not_mem_nil, mem_sortKeys, mem_insertRec, false_or]
            itauto
          · rw [if_neg hspill] at h
            rw [ih _ _ _ _ _ _ _ _ h r]
            simp only [mem_insertRec]
            itauto
        · rw [if_neg hlen] at h
          rw [ih _ _ _ _ _ _ _ _ h r]
          simp only [mem_insertRec]
          itauto

end DedupGo

namespace DedupGo

/-- Invariant of a terminating run of the read loop: the final set is a
duplicate-free, nonempty set, and every spilled chunk is written
strictly sorted (hence duplicate-free) and nonempty. -/
theorem splitLoop_chunks (T : Nat) (pats : List Matcher) :
    ∀ (fuel : Nat) (t : Record) (rest set : List Record) (bytes prev : Nat)
      (chunks cs : List (List Record)) (fs : List Record),
      splitLoop T pats fuel ⟨t, rest, set, bytes, prev, chunks⟩ = some (cs, fs) →
      set.Nodup →
      (∀ c ∈ chunks, List.Sorted rlt c ∧ c ≠ []) →
      fs.Nodup ∧ fs ≠ [] ∧ ∀ c ∈ cs, List.Sorted rlt c ∧ c ≠ [] := by
  intro fuel
  induction fuel with
  | zero => intro t rest set bytes prev chunks cs fs h; simp [splitLoop] at h
  | succ fuel ih =>
    intro t rest set bytes prev chunks cs fs h hnd hch
    match rest with
    | [] =>
      cases hm : matchesAny pats t with
      | true =>
        simp only [splitLoop, hm, if_true] at h
        exact ih _ _ _ _ _ _ _ _ h hnd hch
      | false =>
        simp only [splitLoop, hm, Bool.false_eq_true, if_false] at h
        cases h
        exact ⟨insertRec_nodup hnd t, insertRec_ne_nil set t, hch⟩
    | tok :: rest' =>
      cases hm : matchesAny pats t with
      | true =>
        simp only [splitLoop, hm, if_true] at h
        exact ih _ _ _ _ _ _ _ _ h hnd hch
      | false =>
        simp only [splitLoop, hm, Bool.false_eq_true, if_false] at h
        by_cases hlen : prev < (insertRec set t).length
        · rw [if_pos hlen] at h
          by_cases hspill : T < bytes + recSize t + recSize tok
          · rw [if_pos hspill] at h
            refine ih _ _ _ _ _ _ _ _ h List.nodup_nil ?_
            intro c hc
            rcases List.mem_append.1 hc with hc | hc
            · exact hch c hc
            · rw [List.mem_singleton] at hc
              subst hc
              exact ⟨sortKeys_sorted_strict (insertRec_nodup hnd t),
                sortKeys_ne_nil (insertRec_ne_nil set t)⟩
          · rw [if_neg hspill] at h
            exact ih _ _ _ _ _ _ _ _ h (insertRec_nodup hnd t) hch
        · rw [if_neg hlen] at h
          exact ih _ _ _ _ _ _ _ _ h (insertRec_nodup hnd t) hch

end DedupGo

namespace DedupGo

/-- All chunk files written by a completed `splitSortDeduplicate` run —
the spilled temporary chunks and the final chunk (the destination on
the direct path) — are strictly sorted and nonempty. -/
theorem splitSortDeduplicate_sorted_chunks {T : Nat} {pats : List Matcher}
    {input : List Record} {fuel : Nat} {C : List (List Record)}
    (h : splitSortDeduplicate T pats input fuel = some C) :
    ∀ c ∈ C, List.Sorted rlt c ∧ c ≠ [] := by
  match input with
  | [] =>
    simp only [splitSortDeduplicate] at h
    cases h
    simp
  | l :: ls =>
    simp only [splitSortDeduplicate] at h
    rcases e : splitLoop T pats fuel ⟨l, ls, [], 0, 0, []⟩ with _ | ⟨cs, fs⟩
    · rw [e] at h; cases h
    · rw [e] at h
      cases h
      obtain ⟨hnd, hne, hcs⟩ :=
        splitLoop_chunks T pats fuel l ls [] 0 0 [] cs fs e List.nodup_nil
          (by intro c hc; simp at hc)
      intro c hc
      rcases List.mem_append.1 hc with hc | hc
      · exact hcs c hc
      · rw [List.mem_singleton] at hc
        subst hc
        exact ⟨sortKeys_sorted_strict hnd, sortKeys_ne_nil hne⟩

/-- Membership in the chunk files of a completed `splitSortDeduplicate`
run is exactly membership in the admitted records. -/
theorem splitSortDeduplicate_mem {T : Nat} {pats : List Matcher}
    {input : List Record} {fuel : Nat} {C : List (List Record)}
    (h : splitSortDeduplicate T pats input fuel = some C) :
    ∀ r, (∃ c ∈ C, r ∈ c) ↔ r ∈ admittedRecords pats input := by
  match input with
  | [] =>
    simp only [splitSortDeduplicate] at h
    cases h
    simp [admittedRecords]
  | l :: ls =>
    simp only [splitSortDeduplicate] at h
    rcases e : splitLoop T pats fuel ⟨l, ls, [], 0, 0, []⟩ with _ | ⟨cs, fs⟩
    · rw [e] at h; cases h
    · rw [e] at h
      cases h
      intro r
      have hmem := splitLoop_mem T pats fuel l ls [] 0 0 [] cs fs e r
      simp only [List.not_mem_nil, false_or] at hmem
      rw [exists_mem_append, mem_sortKeys]
      constructor
      · rintro (hE | hf)
        · rcases hmem.1 (Or.inr hE) with hE' | hE'
          · rcases hE' with ⟨c, hc, _⟩
            exact hc.elim
          · exact hE'
        · rcases hmem.1 (Or.inl hf) with hE' | hE'
          · rcases hE' with ⟨c, hc, _⟩
            exact hc.elim
          · exact hE'
      · intro ha
        rcases hmem.2 (Or.inr ha) with hf | hE
        · exact Or.inr hf
        · exact Or.inl hE

end DedupGo

namespace DedupGo

theorem sortIfMany_perm (ss : List MScanner) : List.Perm (sortIfMany ss) ss := by
  unfold sortIfMany
  split
  · exact List.perm_insertionSort _ _
  · exact List.Perm.refl _

theorem sortIfMany_sorted (ss : List MScanner) : List.Sorted scLe (sortIfMany ss) := by
  unfold sortIfMany
  split
  · exact List.sorted_insertionSort _ _
  · rename_i h
    match ss with
    | [] => exact List.sorted_nil
    | [s] => exact List.sorted_singleton s
    | a :: b :: l => exact absurd (by simp [List.length_cons]) h

theorem msMeasure_cons (s : MScanner) (ss : List MScanner) :
    msMeasure (s :: ss) = s.rest.length + 1 + msMeasure ss := by
  simp [msMeasure]

theorem msMeasure_perm {ss₁ ss₂ : List MScanner} (h : List.Perm ss₁ ss₂) :
    msMeasure ss₁ = msMeasure ss₂ :=
  List.Perm.sum_eq (h.map _)

theorem mergeLoopF_step_last {fuel : Nat} {s₀ s : MScanner}
    {ss₀ rest : List MScanner} {prev : Option Record}
    (e : sortIfMany (s₀ :: ss₀) = s :: rest) (hr : s.rest = []) :
    mergeLoopF (fuel + 1) (s₀ :: ss₀) prev =
      (if prev = some s.token then [] else [s.token]) ++
        mergeLoopF fuel rest (some s.token) := by
  simp only [mergeLoopF]
  rw [e]
  simp only [hr]

theorem mergeLoopF_step_more {fuel : Nat} {s₀ s : MScanner}
    {ss₀ rest : List MScanner} {prev : Option Record} {r : Record}
    {rs : List Record} (e : sortIfMany (s₀ :: ss₀) = s :: rest)
    (hr : s.rest = r :: rs) :
    mergeLoopF (fuel + 1) (s₀ :: ss₀) prev =
      (if prev = some s.token then [] else [s.token]) ++
        mergeLoopF fuel (⟨r, rs⟩ :: rest) (some s.token) := by
  simp only [mergeLoopF]
  rw [e]
  simp only [hr]

end DedupGo

namespace DedupGo

/-- One step of the merge loop, abstractly: if `tok` is the least
remaining record, `rec` behaves like the merge of the streams with one
occurrence of `tok` removed, and `prev` is below everything remaining,
then `out ++ rec` is strictly sorted, strictly above `prev`, and
contains exactly the remaining records other than `prev`. -/
theorem merge_assemble {ss ss₁ : List MScanner} {prev : Option Record}
    {tok : Record} {rec : List Record}
    (hlow : ∀ p, prev = some p → ∀ s ∈ ss, ∀ x ∈ s.stream, rle p x)
    (htokmem : ∃ s ∈ ss, tok ∈ s.stream)
    (M : ∀ x, (∃ s ∈ ss, x ∈ s.stream) ↔ x = tok ∨ ∃ s ∈ ss₁, x ∈ s.stream)
    (IH1 : List.Sorted rlt rec)
    (IH2 : ∀ x ∈ rec, rlt tok x)
    (IH3 : ∀ r, r ∈ rec ↔ (∃ s ∈ ss₁, r ∈ s.stream) ∧ some tok ≠ some r) :
    List.Sorted rlt ((if prev = some tok then [] else [tok]) ++ rec) ∧
    (∀ p, prev = some p →
      ∀ x ∈ (if prev = some tok then [] else [tok]) ++ rec, rlt p x) ∧
    (∀ r, r ∈ (if prev = some tok then [] else [tok]) ++ rec ↔
      (∃ s ∈ ss, r ∈ s.stream) ∧ prev ≠ some r) := by
  by_cases hprev : prev = some tok
  · simp only [if_pos hprev, List.nil_append]
    refine ⟨IH1, ?_, ?_⟩
    · intro p hp x hx
      rw [hprev] at hp
      injection hp with hp'
      subst hp'
      exact IH2 x hx
    · intro r
      rw [M r]
      constructor
      · intro hrec
        obtain ⟨hEx, hne⟩ := (IH3 r).1 hrec
        exact ⟨Or.inr hEx, by rw [hprev]; exact hne⟩
      · rintro ⟨hor, hne⟩
        rcases hor with rfl | hEx
        · exact absurd hprev hne
        · exact (IH3 r).2 ⟨hEx, fun hc => hne (hprev.trans hc)⟩
  · simp only [if_neg hprev, List.singleton_append]
    refine ⟨List.sorted_cons.2 ⟨IH2, IH1⟩, ?_, ?_⟩
    · intro p hp x hx
      obtain ⟨s, hs, htok⟩ := htokmem
      have hptok : rle p tok := hlow p hp s hs tok htok
      rcases List.mem_cons.1 hx with rfl | hx'
      · refine ⟨hptok, ?_⟩
        rintro rfl
        exact hprev hp
      · exact rle_rlt_trans hptok (IH2 x hx')
    · intro r
      rw [M r]
      constructor
      · intro h
        rcases List.mem_cons.1 h with rfl | hrec
        · exact ⟨Or.inl rfl, hprev⟩
        · obtain ⟨hEx, _⟩ := (IH3 r).1 hrec
          refine ⟨Or.inr hEx, ?_⟩
          match hp : prev with
          | none => exact fun hc => Option.noConfusion hc
          | some p =>
            obtain ⟨s, hs, htok⟩ := htokmem
            have hptok : rle p tok := hlow p rfl s hs tok htok
            have h3 : rlt p r := rle_rlt_trans hptok (IH2 r hrec)
            intro hc
            injection hc with hc'
            exact (ne_of_rlt h3) hc'
      · rintro ⟨hor, hne⟩
        rcases hor with rfl | hEx
        · exact List.mem_cons_self _ _
        · by_cases hrt : r = tok
          · exact List.mem_cons.2 (Or.inl hrt)
          · refine List.mem_cons.2 (Or.inr ((IH3 r).2 ⟨hEx, ?_⟩))
            exact fun hc => hrt (Option.some.inj hc).symm

end DedupGo

namespace DedupGo

/-- Full characterization of the merge loop of `mergeSortableScanners`:
with enough fuel, strictly sorted input streams, and a previously
written line lying at or below every remaining record, the output is
strictly sorted, lies strictly above the previous line, and consists of
exactly the remaining records other than the previous line. -/
theorem mergeLoopF_spec :
    ∀ (fuel : Nat) (ss : List MScanner) (prev : Option Record),
      msMeasure ss ≤ fuel →
      (∀ s ∈ ss, List.Sorted rlt s.stream) →
      (∀ p, prev = some p → ∀ s ∈ ss, ∀ x ∈ s.stream, rle p x) →
      List.Sorted rlt (mergeLoopF fuel ss prev) ∧
      (∀ p, prev = some p → ∀ x ∈ mergeLoopF fuel ss prev, rlt p x) ∧
      (∀ r, r ∈ mergeLoopF fuel ss prev ↔
        (∃ s ∈ ss, r ∈ s.stream) ∧ prev ≠ some r) := by
  intro fuel
  induction fuel with
  | zero =>
    intro ss prev hmeas hsort hlow
    match ss with
    | [] => simp [mergeLoopF]
    | s :: ss' =>
      rw [msMeasure_cons] at hmeas
      omega
  | succ fuel ih =>
    intro ss prev hmeas hsort hlow
    match ss with
    | [] => simp [mergeLoopF]
    | s₀ :: ss₀ =>
      rcases e : sortIfMany (s₀ :: ss₀) with _ | ⟨s, rest⟩
      · exfalso
        have hlen := (sortIfMany_perm (s₀ :: ss₀)).length_eq
        rw [e] at hlen
        simp at hlen
      · have hperm : List.Perm (s :: rest) (s₀ :: ss₀) := by
          rw [← e]; exact sortIfMany_perm _
        have hsorted : List.Sorted scLe (s :: rest) := by
          rw [← e]; exact sortIfMany_sorted _
        have hs_mem : s ∈ s₀ :: ss₀ := hperm.mem_iff.1 (List.mem_cons_self _ _)
        have hrest_mem : ∀ s' ∈ rest, s' ∈ s₀ :: ss₀ := fun s' h =>
          hperm.mem_iff.1 (List.mem_cons_of_mem _ h)
        -- s.token is a lower bound for every remaining record
        have hmin : ∀ s' ∈ s₀ :: ss₀, ∀ x ∈ s'.stream, rle s.token x := by
          intro s' hs' x hx
          have hs'tok : rle s.token s'.token := by
            rcases List.mem_cons.1 (hperm.mem_iff.2 hs') with h | h
            · rw [h]; exact recLe_refl _
            · exact (List.sorted_cons.1 hsorted).1 s' h
          rcases List.mem_cons.1 hx with rfl | hx'
          · exact hs'tok
          · exact recLe_trans hs'tok
              (rle_of_rlt ((List.sorted_cons.1 (hsort s' hs')).1 x hx'))
        have htokmem : ∃ s' ∈ s₀ :: ss₀, s.token ∈ s'.stream :=
          ⟨s, hs_mem, List.mem_cons_self _ _⟩
        have hm1 : msMeasure (s :: rest) = msMeasure (s₀ :: ss₀) :=
          msMeasure_perm hperm
        rw [msMeasure_cons] at hm1
        match hr : s.rest with
        | [] =>
          have hmeas₁ : msMeasure rest ≤ fuel := by
            rw [hr] at hm1
            simp at hm1
            omega
          have hsort₁ : ∀ s' ∈ rest, List.Sorted rlt s'.stream :=
            fun s' h => hsort s' (hrest_mem s' h)
          have hlow₁ : ∀ p, (some s.token : Option Record) = some p →
              ∀ s' ∈ rest, ∀ x ∈ s'.stream, rle p x := by
            intro p hp s' hs' x hx
            injection hp with hp'
            subst hp'
            exact hmin s' (hrest_mem s' hs') x hx
          obtain ⟨IH1, IH2, IH3⟩ := ih rest (some s.token) hmeas₁ hsort₁ hlow₁
          have M : ∀ x, (∃ s' ∈ s₀ :: ss₀, x ∈ s'.stream) ↔
              x = s.token ∨ ∃ s' ∈ rest, x ∈ s'.stream := by
            intro x
            constructor
            · rintro ⟨s', hs', hx⟩
              rcases List.mem_cons.1 (hperm.mem_iff.2 hs') with h | h
              · subst h
                rcases List.mem_cons.1 hx with h' | h'
                · exact Or.inl h'
                · rw [hr] at h'
                  exact absurd h' (List.not_mem_nil x)
              · exact Or.inr ⟨s', h, hx⟩
            · rintro (rfl | ⟨s', hs', hx⟩)
              · exact htokmem
              · exact ⟨s', hrest_mem s' hs', hx⟩
          rw [mergeLoopF_step_last e hr]
          exact merge_assemble hlow htokmem M IH1
            (fun x hx => IH2 s.token rfl x hx)
            (fun r => IH3 r)
        | r₁ :: rs₁ =>
          have hmeas₁ : msMeasure (⟨r₁, rs₁⟩ :: rest) ≤ fuel := by
            rw [hr] at hm1
            rw [msMeasure_cons]
            simp only [List.length_cons] at hm1
            simp only []
            omega
          have hstream_s : List.Sorted rlt (s.token :: r₁ :: rs₁) := by
            have := hsort s hs_mem
            rw [MScanner.stream, hr] at this
            exact this
          have hsort₁ : ∀ s' ∈ (⟨r₁, rs₁⟩ : MScanner) :: rest,
              List.Sorted rlt s'.stream := by
            intro s' hs'
            rcases List.mem_cons.1 hs' with rfl | h
            · exact (List.sorted_cons.1 hstream_s).2
            · exact hsort s' (hrest_mem s' h)
          have hlow₁ : ∀ p, (some s.token : Option Record) = some p →
              ∀ s' ∈ (⟨r₁, rs₁⟩ : MScanner) :: rest, ∀ x ∈ s'.stream, rle p x := by
            intro p hp s' hs' x hx
            injection hp with hp'
            subst hp'
            rcases List.mem_cons.1 hs' with rfl | h
            · exact hmin s hs_mem x (by rw [MScanner.stream, hr]; exact List.mem_cons_of_mem _ hx)
            · exact hmin s' (hrest_mem s' h) x hx
          obtain ⟨IH1, IH2, IH3⟩ :=
            ih (⟨r₁, rs₁⟩ :: rest) (some s.token) hmeas₁ hsort₁ hlow₁
          have M : ∀ x, (∃ s' ∈ s₀ :: ss₀, x ∈ s'.stream) ↔
              x = s.token ∨ ∃ s' ∈ (⟨r₁, rs₁⟩ : MScanner) :: rest, x ∈ s'.stream := by
            intro x
            constructor
            · rintro ⟨s', hs', hx⟩
              rcases List.mem_cons.1 (hperm.mem_iff.2 hs') with h | h
              · subst h
                rcases List.mem_cons.1 hx with h' | h'
                · exact Or.inl h'
                · rw [hr] at h'
                  exact Or.inr ⟨⟨r₁, rs₁⟩, List.mem_cons_self _ _, h'⟩
              · exact Or.inr ⟨s', List.mem_cons_of_mem _ h, hx⟩
            · rintro (rfl | ⟨s', hs', hx⟩)
              · exact htokmem
              · rcases List.mem_cons.1 hs' with rfl | h
                · exact ⟨s, hs_mem, by
                    rw [MScanner.stream, hr]
                    exact List.mem_cons_of_mem _ hx⟩
                · exact ⟨s', hrest_mem s' h, hx⟩
          rw [mergeLoopF_step_more e hr]
          exact merge_assemble hlow htokmem M IH1
            (fun x hx => IH2 s.token rfl x hx)
            (fun r => IH3 r)

end DedupGo

namespace DedupGo

/-- `mergeSortableScanners` on strictly sorted streams: the output is
strictly sorted (hence duplicate-free) and holds exactly the records of
the streams. -/
theorem mergeScanners_spec {ss : List MScanner}
    (hsort : ∀ s ∈ ss, List.Sorted rlt s.stream) :
    List.Sorted rlt (mergeScanners ss) ∧
    ∀ r, r ∈ mergeScanners ss ↔ ∃ s ∈ ss, r ∈ s.stream := by
  obtain ⟨h1, _, h3⟩ :=
    mergeLoopF_spec (msMeasure ss) ss none (Nat.le_refl _) hsort
      (fun p hp => Option.noConfusion hp)
  refine ⟨h1, fun r => ?_⟩
  rw [mergeScanners, h3 r]
  simp

/-- The seeding loop succeeds on nonempty chunks and produces one
scanner per chunk whose stream is that chunk. -/
theorem seedScanners_eq :
    ∀ (C : List (List Record)), (∀ c ∈ C, c ≠ []) →
      ∃ ss, seedScanners C = some ss ∧ ss.map MScanner.stream = C := by
  intro C
  induction C with
  | nil => exact fun _ => ⟨[], rfl, rfl⟩
  | cons c cs ih =>
    intro hne
    match c, hne c (List.mem_cons_self _ _) with
    | r :: rs, _ =>
      obtain ⟨ss', hss', hmap⟩ := ih fun c' hc' => hne c' (List.mem_cons_of_mem _ hc')
      refine ⟨⟨r, rs⟩ :: ss', ?_, ?_⟩
      · rw [seedScanners, hss', Option.map_some']
      · rw [List.map_cons, hmap, MScanner.stream]

/-- Master characterization of a completed run of `Dedup`: the
destination holds a strictly sorted (duplicate-free) sequence
consisting of exactly the admitted records — and this holds on the
direct path and the merge path alike. -/
theorem dedupOutput_spec {T : Nat} {pats : List Matcher} {input : List Record}
    {fuel : Nat} {out : List Record}
    (h : dedupOutput T pats input fuel = some out) :
    List.Sorted rlt out ∧ ∀ r, r ∈ out ↔ r ∈ admittedRecords pats input := by
  rcases hs : splitSortDeduplicate T pats input fuel with _ | C
  · rw [dedupOutput, hs] at h
    cases h
  · have hmem := splitSortDeduplicate_mem hs
    have hsorted := splitSortDeduplicate_sorted_chunks hs
    rcases C with _ | ⟨c₁, C₂⟩
    · simp only [dedupOutput, hs] at h
      cases h
      refine ⟨List.sorted_nil, fun r => ?_⟩
      rw [← hmem r]
      simp
    · rcases C₂ with _ | ⟨c₂, cs⟩
      · simp only [dedupOutput, hs] at h
        injection h with h'
        subst h'
        refine ⟨(hsorted c₁ (List.mem_cons_self _ _)).1, fun r => ?_⟩
        rw [← hmem r]
        simp
      · simp only [dedupOutput, hs, mergeChunks] at h
        obtain ⟨ss, hss, hmap⟩ :=
          seedScanners_eq (c₁ :: c₂ :: cs) (fun c hc => (hsorted c hc).2)
        rw [hss, Option.map_some'] at h
        injection h with h'
        subst h'
        have hstreams : ∀ s ∈ ss, List.Sorted rlt s.stream := by
          intro s hsm
          exact (hsorted s.stream (hmap ▸ List.mem_map_of_mem MScanner.stream hsm)).1
        obtain ⟨h1, h2⟩ := mergeScanners_spec hstreams
        refine ⟨h1, fun r => ?_⟩
        rw [h2 r, ← hmem r, ← hmap]
        constructor
        · rintro ⟨s, hsm, hr⟩
          exact ⟨s.stream, List.mem_map_of_mem MScanner.stream hsm, hr⟩
        · rintro ⟨c, hc, hr⟩
          rcases List.mem_map.1 hc with ⟨s, hsm, rfl⟩
          exact ⟨s, hsm, hr⟩

end DedupGo

namespace DedupGo

theorem count_one_of_nodup {α : Type} [BEq α] [LawfulBEq α] {a : α}
    {l : List α} (hnd : l.Nodup) (hm : a ∈ l) : List.count a l = 1 := by
  induction l with
  | nil => cases hm
  | cons b l ih =>
    rw [List.count_cons]
    rcases List.mem_cons.1 hm with rfl | hm'
    · rw [List.count_eq_zero.2 (List.nodup_cons.1 hnd).1]
      simp
    · have hne : a ≠ b := by
        rintro rfl
        exact (List.nodup_cons.1 hnd).1 hm'
      rw [ih (List.nodup_cons.1 hnd).2 hm']
      simp [Ne.symm hne]

theorem mem_admittedRecords {pats : List Matcher} {input : List Record}
    {r : Record} (hr : r ∈ input) (hm : matchesAny pats r = false) :
    r ∈ admittedRecords pats input := by
  rcases e : input.getLast? with _ | l
  · rw [List.getLast?_eq_none_iff] at e
    subst e
    exact absurd hr (List.not_mem_nil r)
  · simp only [admittedRecords, e]
    exact List.mem_append_left _ (List.mem_filter.2 ⟨hr, by simp [hm]⟩)

end DedupGo

open DedupGo

/-- C1 (Completeness): whenever `Dedup` returns success, every distinct
input record that matches no skip pattern appears exactly once among
the records written to the destination. -/
theorem claim_C1_completeness (T : Nat) (pats : List Matcher)
    (input : List Record) (fuel : Nat) (out : List Record)
    (h : dedupOutput T pats input fuel = some out)
    (r : Record) (hr : r ∈ input) (hm : matchesAny pats r = false) :
    List.count r out = 1 := by
  obtain ⟨hsort, hmem⟩ := dedupOutput_spec h
  exact count_one_of_nodup (nodup_of_sorted_rlt hsort)
    ((hmem r).2 (mem_admittedRecords hr hm))

/-- Witness for C1 at a concrete run: input `b, a, b` with no patterns,
threshold 100 (direct path); the output is `a, b` and `a` is counted
once. -/
theorem claim_C1_completeness_witness :
    List.count ([97] : Record) [[97], [98]] = 1 :=
  claim_C1_completeness 100 [] [[98], [97], [98]] 20 [[97], [98]]
    (by rfl) [97] (by decide) (by rfl)

/-- C2 (Global order): whenever `Dedup` returns success — via the
direct path or the k-way merge path — the records written to the
destination are byte-lexicographically non-decreasing from start to
end. -/
theorem claim_C2_global_order (T : Nat) (pats : List Matcher)
    (input : List Record) (fuel : Nat) (out : List Record)
    (h : dedupOutput T pats input fuel = some out) :
    List.Sorted rle out :=
  sorted_rle_of_rlt (dedupOutput_spec h).1

/-- Witness for C2 at a concrete run that takes the merge path
(threshold 4 forces a spill). -/
theorem claim_C2_global_order_witness :
    List.Sorted rle [[97], [98], [99]] :=
  claim_C2_global_order 4 [] [[98], [97], [99], [98]] 20 [[97], [98], [99]]
    (by rfl)

/-- C4 (Threshold invariance): for a fixed input and pattern list, any
two positive thresholds whose runs complete yield identical record
sequences and byte-identical destination contents. -/
theorem claim_C4_threshold_invariance (T₁ T₂ : Nat) (pats : List Matcher)
    (input : List Record) (fuel₁ fuel₂ : Nat) (o₁ o₂ : List Record)
    (hT₁ : 0 < T₁) (hT₂ : 0 < T₂)
    (h₁ : dedupOutput T₁ pats input fuel₁ = some o₁)
    (h₂ : dedupOutput T₂ pats input fuel₂ = some o₂) :
    o₁ = o₂ ∧ serializeRecords o₁ = serializeRecords o₂ := by
  obtain ⟨hs₁, hm₁⟩ := dedupOutput_spec h₁
  obtain ⟨hs₂, hm₂⟩ := dedupOutput_spec h₂
  have he : o₁ = o₂ := sorted_rlt_ext hs₁ hs₂ fun a => (hm₁ a).trans (hm₂ a).symm
  exact ⟨he, by rw [he]⟩

/-- Witness for C4: threshold 4 (two chunks, merge path) and threshold
1000 (zero spills, direct path) on the same input produce the same
destination bytes. -/
theorem claim_C4_threshold_invariance_witness :
    ([[97], [98], [99]] : List Record) = [[97], [98], [99]] ∧
      serializeRecords [[97], [98], [99]] = serializeRecords [[97], [98], [99]] :=
  claim_C4_threshold_invariance 4 1000 [] [[98], [97], [99], [98]] 20 20
    [[97], [98], [99]] [[97], [98], [99]] (by decide) (by decide)
    (by rfl) (by rfl)

/-- C6 (Chunk invariant): every chunk file produced by
`splitSortDeduplicate` — every spilled temporary chunk and the final
chunk, including the destination on the direct path — is sorted and
contains no duplicate records. -/
theorem claim_C6_chunk_invariant (T : Nat) (pats : List Matcher)
    (input : List Record) (fuel : Nat) (C : List (List Record))
    (h : splitSortDeduplicate T pats input fuel = some C) :
    ∀ c ∈ C, List.Sorted rle c ∧ c.Nodup := by
  intro c hc
  obtain ⟨hs, _⟩ := splitSortDeduplicate_sorted_chunks h c hc
  exact ⟨sorted_rle_of_rlt hs, nodup_of_sorted_rlt hs⟩

/-- Witness for C6 on a run with one spilled chunk and one final
chunk. -/
theorem claim_C6_chunk_invariant_witness :
    List.Sorted rle [[97], [98]] ∧ ([[97], [98]] : List Record).Nodup :=
  claim_C6_chunk_invariant 4 [] [[97], [98], [99]] 10 [[[97], [98]], [[99]]]
    (by rfl) [[97], [98]] (by decide)

/-- C9 (Empty input): on an empty input stream, `Dedup` returns
success, `splitSortDeduplicate` creates zero chunk files, no merge
happens, and nothing is written to the destination. -/
theorem claim_C9_empty_input (T : Nat) (pats : List Matcher) (fuel : Nat) :
    splitSortDeduplicate T pats [] fuel = some [] ∧
      dedupOutput T pats [] fuel = some [] :=
  ⟨rfl, rfl⟩

namespace DedupGo

/-- A compiled pattern matching exactly the one-byte line "a". -/
def patMatchA : Matcher := fun r => decide (r = [97])

/-- A compiled pattern matching every line (e.g. the regexp `.*` or the
empty regexp), in particular the empty string. -/
def patMatchAll : Matcher := fun _ => true

end DedupGo

/-- C3 (code bug, evaluated): with one skip pattern matching exactly
the line "a" (byte 97) and the single-line input "a", the run
completes and writes one empty record to the destination — after the
skipped final line, the loop runs once more on the scanner's empty EOF
token and admits it — although the empty record does not occur in the
input.  This contradicts the claim that every record written occurs as
a line of the input. -/
theorem claim_C3_spurious_empty_record :
    dedupOutput 100 [patMatchA] [[97]] 10 = some [[]] ∧
      ([] : Record) ∉ ([[97]] : List Record) :=
  ⟨rfl, by decide⟩

/-- C10 (code bug, evaluated): with one skip pattern that matches every
line — including the empty string — and the nonempty input "a", the
read loop never exits: it keeps re-processing the scanner's empty EOF
token.  The model returns `none` for every amount of fuel, so `Dedup`
never returns. -/
theorem claim_C10_nontermination :
    ∀ (fuel T : Nat),
      splitSortDeduplicate T [patMatchAll] [[97]] fuel = none ∧
        dedupOutput T [patMatchAll] [[97]] fuel = none := by
  have key : ∀ (fuel T : Nat) (set : List Record) (bytes prev : Nat)
      (chunks : List (List Record)),
      splitLoop T [patMatchAll] fuel ⟨[], [], set, bytes, prev, chunks⟩ = none := by
    intro fuel
    induction fuel with
    | zero => intro T set bytes prev chunks; rfl
    | succ fuel ih =>
      intro T set bytes prev chunks
      have hm : matchesAny [patMatchAll] [] = true := rfl
      simp only [splitLoop, hm, if_true]
      exact ih T set bytes prev chunks
  intro fuel T
  have hsplit : splitSortDeduplicate T [patMatchAll] [[97]] fuel = none := by
    cases fuel with
    | zero => rfl
    | succ fuel =>
      have hm : matchesAny [patMatchAll] [97] = true := rfl
      have h1 : splitLoop T [patMatchAll] (fuel + 1) ⟨[97], [], [], 0, 0, []⟩ = none := by
        simp only [splitLoop, hm, if_true]
        exact key fuel T [] 0 0 []
      simp only [splitSortDeduplicate, h1]
  exact ⟨hsplit, by simp only [dedupOutput, hsplit]⟩

namespace DedupGo

/-- The spill procedure exactly as claim C5 words it (a comparison
definition following the claim, not the source): before admitting a
new *distinct* record, check whether the byte counter plus that
record's prospective serialized size would meet or exceed the
threshold; if so, first sort and flush the current Working Set as a new
chunk, then reset the set and the counter to empty before admitting the
pending record; re-seen duplicates are free and never trigger a
spill. -/
def claimSpillStep (T : Nat) (st : List Record × Nat × List (List Record))
    (r : Record) : List Record × Nat × List (List Record) :=
  match st with
  | (set, bytes, chunks) =>
    if r ∈ set then (set, bytes, chunks)
    else if T ≤ bytes + recSize r then
      ([r], recSize r, chunks ++ [sortKeys set])
    else (set ++ [r], bytes + recSize r, chunks)

/-- Run the claimed procedure over the (filtered) records, flushing the
remaining Working Set as the final chunk at end of input. -/
def claimChunkFiles (T : Nat) (records : List Record) : List (List Record) :=
  match records.foldl (claimSpillStep T) ([], 0, []) with
  | (set, _, chunks) => chunks ++ [sortKeys set]

/-- The extra empty token processed when the final line is skipped. -/
def tpExt (pats : List Matcher) (input : List Record) : List Record :=
  match input.getLast? with
  | none => []
  | some l => if matchesAny pats l then [([] : Record)] else []

/-- The sequence of tokens the read loop actually processes: the input
lines, plus — when the final line matches a skip pattern — one empty
token from the exhausted scanner. -/
def tokensProcessed (pats : List Matcher) (input : List Record) : List Record :=
  input ++ tpExt pats input

/-- The spill procedure as the code actually implements it (amended
claim C5): after admitting a new distinct record and adding its
serialized size to the counter, and only when a further input line
exists, compare the counter plus that next line's serialized size —
whatever that line is, distinct, duplicate or about to be filtered —
against the threshold, and spill (flushing a sorted chunk that includes
the just-admitted record, then resetting set and counter) only when the
sum strictly exceeds the threshold; iterations on a duplicate or
filtered token perform no check, and no check precedes the final
token. -/
def amendedRun (T : Nat) (pats : List Matcher) :
    List Record → List Record × Nat × List (List Record) →
      List (List Record) × List Record
  | [], (_, _, chunks) => (chunks, [])
  | [t], (set, _, chunks) =>
    if matchesAny pats t then (chunks, set)
    else (chunks, insertRec set t)
  | t :: next :: rest, (set, bytes, chunks) =>
    if matchesAny pats t then amendedRun T pats (next :: rest) (set, bytes, chunks)
    else
      let set' := insertRec set t
      if set.length < set'.length then
        let bytes' := bytes + recSize t
        if T < bytes' + recSize next then
          amendedRun T pats (next :: rest) ([], 0, chunks ++ [sortKeys set'])
        else amendedRun T pats (next :: rest) (set', bytes', chunks)
      else amendedRun T pats (next :: rest) (set', bytes, chunks)

/-- Chunk files of the amended procedure, final flush included. -/
def amendedChunkFiles (T : Nat) (pats : List Matcher)
    (input : List Record) : List (List Record) :=
  match input with
  | [] => []
  | _ :: _ =>
    match amendedRun T pats (tokensProcessed pats input) ([], 0, []) with
    | (chunks, set) => chunks ++ [sortKeys set]

theorem tpExt_cons_cons (pats : List Matcher) (t tok : Record)
    (rest : List Record) :
    tpExt pats (t :: tok :: rest) = tpExt pats (tok :: rest) := by
  simp [tpExt, List.getLast?_cons_cons]

theorem tokensProcessed_cons_cons (pats : List Matcher) (t tok : Record)
    (rest : List Record) :
    tokensProcessed pats (t :: tok :: rest) =
      t :: tokensProcessed pats (tok :: rest) := by
  simp [tokensProcessed, tpExt_cons_cons, List.cons_append]

theorem tokensProcessed_cons (pats : List Matcher) (tok : Record)
    (rest : List Record) :
    tokensProcessed pats (tok :: rest) =
      tok :: (rest ++ tpExt pats (tok :: rest)) := by
  simp [tokensProcessed, List.cons_append]

end DedupGo

namespace DedupGo

/-- The read loop computes exactly the amended spill procedure: from
any loop state whose `previousLen` equals the set size (an invariant of
the loop), a terminating run returns the chunks and final set of
`amendedRun` on the remaining processed tokens. -/
theorem splitLoop_eq_amendedRun (T : Nat) (pats : List Matcher) :
    ∀ (fuel : Nat) (t : Record) (rest set : List Record) (bytes : Nat)
      (chunks cs : List (List Record)) (fs : List Record),
      splitLoop T pats fuel ⟨t, rest, set, bytes, set.length, chunks⟩ = some (cs, fs) →
      amendedRun T pats (tokensProcessed pats (t :: rest)) (set, bytes, chunks) = (cs, fs) := by
  intro fuel
  induction fuel with
  | zero => intro t rest set bytes chunks cs fs h; simp [splitLoop] at h
  | succ fuel ih =>
    intro t rest set bytes chunks cs fs h
    match rest with
    | [] =>
      cases hm : matchesAny pats t with
      | true =>
        simp only [splitLoop, hm, if_true] at h
        have hIH := ih [] [] set bytes chunks cs fs h
        rw [tokensProcessed_cons pats t [], List.nil_append,
          show tpExt pats [t] = [[]] from by simp [tpExt, hm]]
        simp only [amendedRun, hm, if_true]
        rw [tokensProcessed_cons pats [] [], List.nil_append] at hIH
        cases hm2 : matchesAny pats ([] : Record) with
        | true =>
          rw [show tpExt pats [([] : Record)] = [[]] from by simp [tpExt, hm2]] at hIH
          simp only [amendedRun, hm2, if_true] at hIH
          simpa only [if_true] using hIH
        | false =>
          rw [show tpExt pats [([] : Record)] = [] from by simp [tpExt, hm2]] at hIH
          simp only [amendedRun, hm2, Bool.false_eq_true, if_false] at hIH
          simpa only [Bool.false_eq_true, if_false] using hIH
      | false =>
        simp only [splitLoop, hm, Bool.false_eq_true, if_false] at h
        cases h
        rw [tokensProcessed_cons pats t [], List.nil_append,
          show tpExt pats [t] = [] from by simp [tpExt, hm]]
        simp [amendedRun, hm]
    | tok :: rest' =>
      cases hm : matchesAny pats t with
      | true =>
        simp only [splitLoop, hm, if_true] at h
        have hIH := ih tok rest' set bytes chunks cs fs h
        rw [tokensProcessed_cons_cons pats t tok rest',
          tokensProcessed_cons pats tok rest']
        rw [tokensProcessed_cons pats tok rest'] at hIH
        simpa only [amendedRun, hm, if_true] using hIH
      | false =>
        simp only [splitLoop, hm, Bool.false_eq_true, if_false] at h
        rw [tokensProcessed_cons_cons pats t tok rest',
          tokensProcessed_cons pats tok rest']
        by_cases hlen : set.length < (insertRec set t).length
        · rw [if_pos hlen] at h
          by_cases hspill : T < bytes + recSize t + recSize tok
          · rw [if_pos hspill] at h
            have hIH := ih tok rest' [] 0
              (chunks ++ [sortKeys (insertRec set t)]) cs fs h
            rw [tokensProcessed_cons pats tok rest'] at hIH
            simp only [amendedRun, hm, Bool.false_eq_true, if_false]
            rw [if_pos hlen, if_pos hspill]
            exact hIH
          · rw [if_neg hspill] at h
            have hIH := ih tok rest' (insertRec set t) (bytes + recSize t) chunks cs fs h
            rw [tokensProcessed_cons pats tok rest'] at hIH
            simp only [amendedRun, hm, Bool.false_eq_true, if_false]
            rw [if_pos hlen, if_neg hspill]
            exact hIH
        · rw [if_neg hlen] at h
          have hIH := ih tok rest' (insertRec set t) bytes chunks cs fs h
          rw [tokensProcessed_cons pats tok rest'] at hIH
          simp only [amendedRun, hm, Bool.false_eq_true, if_false]
          rw [if_neg hlen]
          exact hIH

end DedupGo

/-- C5 counterexample: on input `aaaa, b, b` with threshold 8 and no
patterns, the code spills (the look-ahead check after admitting the
distinct `b` uses the size of the next line, a re-seen duplicate, and
`7 + 2` strictly exceeds 8), producing two chunk files; the procedure
exactly as the claim states it never spills on this input (the counter
reaches only 7 < 8 before any admission and the duplicate is free), so
the claim mispredicts the run. -/
theorem claim_C5_counterexample :
    splitSortDeduplicate 8 [] [[97, 97, 97, 97], [98], [98]] 32 =
        some [[[97, 97, 97, 97], [98]], [[98]]] ∧
      claimChunkFiles 8 [[97, 97, 97, 97], [98], [98]] =
        [[[97, 97, 97, 97], [98]]] ∧
      splitSortDeduplicate 8 [] [[97, 97, 97, 97], [98], [98]] 32 ≠
        some (claimChunkFiles 8 [[97, 97, 97, 97], [98], [98]]) :=
  ⟨rfl, rfl, by decide⟩

/-- C5 (amended): every completed `splitSortDeduplicate` run produces
exactly the chunk files of the amended spill procedure: after admitting
a new distinct record and adding its serialized size to the counter,
and only when a further input line exists, the engine spills — flushing
the sorted Working Set including the just-admitted record, then
resetting set and counter — exactly when the counter plus the next
line's serialized size (whatever that line is) strictly exceeds the
threshold; duplicate or filtered tokens trigger no check, and no check
precedes the final token. -/
theorem claim_C5_amended_spill_procedure (T : Nat) (pats : List Matcher)
    (input : List Record) (fuel : Nat) (C : List (List Record))
    (h : splitSortDeduplicate T pats input fuel = some C) :
    C = amendedChunkFiles T pats input := by
  match input with
  | [] =>
    simp only [splitSortDeduplicate] at h
    injection h with h'
    subst h'
    rfl
  | l :: ls =>
    simp only [splitSortDeduplicate] at h
    rcases e : splitLoop T pats fuel ⟨l, ls, [], 0, 0, []⟩ with _ | ⟨cs, fs⟩
    · rw [e] at h
      cases h
    · rw [e] at h
      injection h with h'
      subst h'
      have ham := splitLoop_eq_amendedRun T pats fuel l ls [] 0 [] cs fs e
      simp only [amendedChunkFiles, ham]

/-- Witness for the amended C5 on a spilling run. -/
theorem claim_C5_amended_spill_procedure_witness :
    ([[[97], [98]], [[99]]] : List (List Record)) =
      amendedChunkFiles 4 [] [[97], [98], [99]] :=
  claim_C5_amended_spill_procedure 4 [] [[97], [98], [99]] 10
    [[[97], [98]], [[99]]] (by rfl)

namespace DedupGo

/-- Identity of a file handled by the run: the caller's destination, or
the n-th temporary chunk file created by `os.CreateTemp`. -/
inductive FTag where
  | dest : FTag
  | temp : Nat → FTag
deriving DecidableEq

/-- Result of `splitSortDeduplicate` as seen by `Dedup`'s deferred
cleanup (Go lines 89-97): the files in the returned `chunks` slice (in
order), the temporary files actually created during the run, and
whether the function returned without error.  The Go function returns
its `chunks` slice on *every* exit path. -/
structure FileResult where
  retChunks : List FTag
  created : List Nat
  ok : Bool
deriving DecidableEq

/-- Loop state of the file-ledger model of `splitSortDeduplicate`:
the same scanner/set/counter state as `SplitState`, plus the `chunks`
slice as file tags, the list of created temp-file ids, and the number
of `writeSlice` calls performed (used to index the write-failure
oracle). -/
structure FileState where
  token : Record
  rest : List Record
  set : List Record
  bytesUsed : Nat
  previousLen : Nat
  retChunks : List FTag
  created : List Nat
  writes : Nat

/-- File-ledger model of the read loop and the post-loop code of
`splitSortDeduplicate` (Go lines 182-273), with fault injection:
`failCreate n` makes the creation of the n-th temporary file fail
(`os.CreateTemp` error, Go lines 226-229 and 261-264), `failWrite n`
makes the n-th `writeSlice` call fail (Go lines 234-237 and 273), and
`readErr` makes `scanner.Err()` non-nil after the loop (Go lines
249-252).  Every exit path returns the `chunks` slice accumulated so
far, exactly as the Go code does. -/
def fileLoop (T : Nat) (pats : List Matcher) (failCreate failWrite : Nat → Bool)
    (readErr : Bool) : Nat → FileState → Option FileResult
  | 0, _ => none
  | fuel + 1, st =>
    match st.rest with
    | [] =>
      if matchesAny pats st.token then
        fileLoop T pats failCreate failWrite readErr fuel
          ⟨[], [], st.set, st.bytesUsed, st.previousLen,
            st.retChunks, st.created, st.writes⟩
      else
        -- `break loop`, then Go lines 249-273
        if readErr then some ⟨st.retChunks, st.created, false⟩
        else if st.retChunks = [] then
          -- direct path: the final chunk is the destination file
          some ⟨[FTag.dest], st.created, !failWrite st.writes⟩
        else
          -- create one more temporary file for the final chunk
          if failCreate st.created.length then
            some ⟨st.retChunks, st.created, false⟩
          else
            some ⟨st.retChunks ++ [FTag.temp st.created.length],
              st.created ++ [st.created.length], !failWrite st.writes⟩
    | tok :: rest' =>
      if matchesAny pats st.token then
        fileLoop T pats failCreate failWrite readErr fuel
          ⟨tok, rest', st.set, st.bytesUsed, st.previousLen,
            st.retChunks, st.created, st.writes⟩
      else
        let set' := insertRec st.set st.token
        let currentLen := set'.length
        if st.previousLen < currentLen then
          let bytes' := st.bytesUsed + recSize st.token
          if T < bytes' + recSize tok then
            if failCreate st.created.length then
              some ⟨st.retChunks, st.created, false⟩
            else
              if failWrite st.writes then
                some ⟨st.retChunks ++ [FTag.temp st.created.length],
                  st.created ++ [st.created.length], false⟩
              else
                fileLoop T pats failCreate failWrite readErr fuel
                  ⟨tok, rest', [], 0, 0,
                    st.retChunks ++ [FTag.temp st.created.length],
                    st.created ++ [st.created.length], st.writes + 1⟩
          else
            fileLoop T pats failCreate failWrite readErr fuel
              ⟨tok, rest', set', bytes', currentLen,
                st.retChunks, st.created, st.writes⟩
        else
          fileLoop T pats failCreate failWrite readErr fuel
            ⟨tok, rest', set', st.bytesUsed, currentLen,
              st.retChunks, st.created, st.writes⟩

/-- `splitSortDeduplicate` at the file level, empty-input early return
included (Go lines 176-179: no file is ever created there, and a read
error is reported). -/
def splitFiles (T : Nat) (pats : List Matcher)
    (failCreate failWrite : Nat → Bool) (readErr : Bool)
    (input : List Record) (fuel : Nat) : Option FileResult :=
  match input with
  | [] => some ⟨[], [], !readErr⟩
  | l :: ls =>
    fileLoop T pats failCreate failWrite readErr fuel ⟨l, ls, [], 0, 0, [], [], 0⟩

/-- The deferred cleanup of `Dedup` (Go lines 89-97): close and remove
every file of the returned chunks slice except the destination.  The
merge stage (Go lines 327-428) neither creates nor removes any file, so
these are all the deletions the run performs. -/
def cleanupRemoved (res : FileResult) : List FTag :=
  res.retChunks.filter fun f => decide (f ≠ FTag.dest)

theorem filter_ne_dest_map_temp (l : List Nat) :
    (l.map FTag.temp).filter (fun f => decide (f ≠ FTag.dest)) =
      l.map FTag.temp := by
  induction l with
  | nil => rfl
  | cons n l ih => simp [List.filter, ih]

theorem dest_not_mem_map_temp (l : List Nat) :
    FTag.dest ∉ l.map FTag.temp := by
  simp [List.mem_map]

/-- Ledger invariant: starting from a state whose chunks slice holds
exactly the created temp files, every exit of the loop returns either a
chunks slice that again holds exactly the created temp files, or — on
the direct path only — the singleton destination with no temp file ever
created. -/
theorem fileLoop_ledger (T : Nat) (pats : List Matcher)
    (failCreate failWrite : Nat → Bool) (readErr : Bool) :
    ∀ (fuel : Nat) (t : Record) (rest set : List Record) (bytes prev : Nat)
      (created : List Nat) (writes : Nat) (res : FileResult),
      fileLoop T pats failCreate failWrite readErr fuel
        ⟨t, rest, set, bytes, prev, created.map FTag.temp, created, writes⟩ =
          some res →
      res.retChunks = res.created.map FTag.temp ∨
        (res.retChunks = [FTag.dest] ∧ res.created = []) := by
  intro fuel
  induction fuel with
  | zero => intro t rest set bytes prev created writes res h; simp [fileLoop] at h
  | succ fuel ih =>
    intro t rest set bytes prev created writes res h
    match rest with
    | [] =>
      cases hm : matchesAny pats t with
      | true =>
        simp only [fileLoop, hm, if_true] at h
        exact ih _ _ _ _ _ _ _ _ h
      | false =>
        simp only [fileLoop, hm, Bool.false_eq_true, if_false] at h
        by_cases hre : readErr = true
        · rw [if_pos hre] at h
          injection h with h'
          subst h'
          exact Or.inl rfl
        · rw [if_neg hre] at h
          by_cases hempty : created.map FTag.temp = ([] : List FTag)
          · rw [if_pos hempty] at h
            injection h with h'
            subst h'
            exact Or.inr ⟨rfl, List.map_eq_nil.1 hempty⟩
          · rw [if_neg hempty] at h
            by_cases hfc : failCreate created.length = true
            · rw [if_pos hfc] at h
              injection h with h'
              subst h'
              exact Or.inl rfl
            · rw [if_neg hfc] at h
              injection h with h'
              subst h'
              exact Or.inl (by simp)
    | tok :: rest' =>
      cases hm : matchesAny pats t with
      | true =>
        simp only [fileLoop, hm, if_true] at h
        exact ih _ _ _ _ _ _ _ _ h
      | false =>
        simp only [fileLoop, hm, Bool.false_eq_true, if_false] at h
        by_cases hlen : prev < (insertRec set t).length
        · rw [if_pos hlen] at h
          by_cases hspill : T < bytes + recSize t + recSize tok
          · rw [if_pos hspill] at h
            by_cases hfc : failCreate created.length = true
            · rw [if_pos hfc] at h
              injection h with h'
              subst h'
              exact Or.inl rfl
            · rw [if_neg hfc] at h
              by_cases hfw : failWrite writes = true
              · rw [if_pos hfw] at h
                injection h with h'
                subst h'
                exact Or.inl (by simp)
              · rw [if_neg hfw] at h
                rw [show created.map FTag.temp ++ [FTag.temp created.length] =
                    (created ++ [created.length]).map FTag.temp from by simp] at h
                exact ih _ _ _ _ _ _ _ _ h
          · rw [if_neg hspill] at h
            exact ih _ _ _ _ _ _ _ _ h
        · rw [if_neg hlen] at h
          exact ih _ _ _ _ _ _ _ _ h

end DedupGo

/-- C7 (Cleanup guarantee): on every exit path of
`splitSortDeduplicate` — success, input read error, chunk-creation
failure or write failure at any stage — the deferred cleanup of `Dedup`
removes exactly the temporary chunk files the run created (each of
them, and nothing else), and never removes the caller-supplied
destination file, even when the destination was used directly as the
final chunk.  The merge stage creates and removes no files. -/
theorem claim_C7_cleanup (T : Nat) (pats : List Matcher)
    (failCreate failWrite : Nat → Bool) (readErr : Bool)
    (input : List Record) (fuel : Nat) (res : FileResult)
    (h : splitFiles T pats failCreate failWrite readErr input fuel = some res) :
    cleanupRemoved res = res.created.map FTag.temp ∧
      FTag.dest ∉ cleanupRemoved res := by
  have hl : res.retChunks = res.created.map FTag.temp ∨
      (res.retChunks = [FTag.dest] ∧ res.created = []) := by
    match input with
    | [] =>
      simp only [splitFiles] at h
      injection h with h'
      subst h'
      exact Or.inl rfl
    | l :: ls =>
      simp only [splitFiles] at h
      exact fileLoop_ledger T pats failCreate failWrite readErr fuel l ls
        [] 0 0 [] 0 res h
  rcases hl with hl | ⟨hl, hc⟩
  · simp only [cleanupRemoved]
    rw [hl, filter_ne_dest_map_temp]
    exact ⟨rfl, dest_not_mem_map_temp res.created⟩
  · simp only [cleanupRemoved]
    rw [hl, hc]
    refine ⟨by simp [List.filter], fun hmem => ?_⟩
    simp [List.filter] at hmem

/-- Witness for C7: a run with threshold 1 on three lines creates two
spill chunks; the second `writeSlice` is made to fail, aborting the
run; the cleanup still removes exactly the two created temp files and
not the destination. -/
theorem claim_C7_cleanup_witness :
    cleanupRemoved ⟨[FTag.temp 0, FTag.temp 1], [0, 1], false⟩ =
        ([0, 1] : List Nat).map FTag.temp ∧
      FTag.dest ∉ cleanupRemoved ⟨[FTag.temp 0, FTag.temp 1], [0, 1], false⟩ :=
  claim_C7_cleanup 1 [] (fun _ => false) (fun n => decide (n = 1)) false
    [[97], [98], [99]] 10 ⟨[FTag.temp 0, FTag.temp 1], [0, 1], false⟩ (by rfl)

namespace DedupGo

/-- Observable events of the merge stage (`mergeSortableScanners`, Go
lines 366-428): a record written to the destination buffer, a cursor
removed from the live slice because its chunk is exhausted (Go lines
419-422), or a chunk file deleted.  The merge code performs no file
deletion — `deleteFile` never occurs in its traces; files are deleted
only later, by `Dedup`'s deferred cleanup. -/
inductive MEvent where
  | emit : Record → MEvent
  | exhaust : FTag → MEvent
  | deleteFile : FTag → MEvent
deriving DecidableEq

/-- A merge cursor together with the identity of its chunk file. -/
structure TScanner where
  tag : FTag
  token : Record
  rest : List Record
deriving DecidableEq

def tsLe (a b : TScanner) : Prop := rle a.token b.token

instance : DecidableRel tsLe := fun a b => by unfold tsLe; infer_instance
instance : IsTotal TScanner tsLe := ⟨fun a b => recLe_total a.token b.token⟩
instance : IsTrans TScanner tsLe := ⟨fun _ _ _ => recLe_trans⟩

def sortIfManyT (ss : List TScanner) : List TScanner :=
  if 1 < ss.length then ss.insertionSort tsLe else ss

def tMeasure (ss : List TScanner) : Nat :=
  (ss.map fun s => s.rest.length + 1).sum

/-- Event trace of the merge loop: same control flow as `mergeLoopF`,
but recording what happens to each cursor and its file.  Faithful to
the source, an exhausted cursor is dropped from the live slice
(`scanners = scanners[1:]`) and nothing else happens to its file. -/
def mergeLoopEv : Nat → List TScanner → Option Record → List MEvent
  | _, [], _ => []
  | 0, _ :: _, _ => []
  | fuel + 1, s₀ :: ss₀, prev =>
    match sortIfManyT (s₀ :: ss₀) with
    | [] => []
    | s :: rest =>
      (if prev = some s.token then [] else [MEvent.emit s.token]) ++
        (match s.rest with
         | [] => MEvent.exhaust s.tag :: mergeLoopEv fuel rest (some s.token)
         | r :: rs => mergeLoopEv fuel (⟨s.tag, r, rs⟩ :: rest) (some s.token))

/-- The full merge-stage trace, as `mergeSortableScanners` runs it. -/
def mergeEvents (ss : List TScanner) : List MEvent :=
  mergeLoopEv (tMeasure ss) ss none

theorem sortIfManyT_perm (ss : List TScanner) :
    List.Perm (sortIfManyT ss) ss := by
  unfold sortIfManyT
  split
  · exact List.perm_insertionSort _ _
  · exact List.Perm.refl _

theorem mergeLoopEv_step_last {fuel : Nat} {s₀ s : TScanner}
    {ss₀ rest : List TScanner} {prev : Option Record}
    (e : sortIfManyT (s₀ :: ss₀) = s :: rest) (hr : s.rest = []) :
    mergeLoopEv (fuel + 1) (s₀ :: ss₀) prev =
      (if prev = some s.token then [] else [MEvent.emit s.token]) ++
        (MEvent.exhaust s.tag :: mergeLoopEv fuel rest (some s.token)) := by
  simp only [mergeLoopEv]
  rw [e]
  simp only [hr]

theorem mergeLoopEv_step_more {fuel : Nat} {s₀ s : TScanner}
    {ss₀ rest : List TScanner} {prev : Option Record} {r : Record}
    {rs : List Record} (e : sortIfManyT (s₀ :: ss₀) = s :: rest)
    (hr : s.rest = r :: rs) :
    mergeLoopEv (fuel + 1) (s₀ :: ss₀) prev =
      (if prev = some s.token then [] else [MEvent.emit s.token]) ++
        mergeLoopEv fuel (⟨s.tag, r, rs⟩ :: rest) (some s.token) := by
  simp only [mergeLoopEv]
  rw [e]
  simp only [hr]

/-- The merge loop never deletes a file. -/
theorem mergeLoopEv_no_delete :
    ∀ (fuel : Nat) (ss : List TScanner) (prev : Option Record) (f : FTag),
      MEvent.deleteFile f ∉ mergeLoopEv fuel ss prev := by
  intro fuel
  induction fuel with
  | zero =>
    intro ss prev f
    cases ss <;> simp [mergeLoopEv]
  | succ fuel ih =>
    intro ss prev f
    match ss with
    | [] => simp [mergeLoopEv]
    | s₀ :: ss₀ =>
      rcases e : sortIfManyT (s₀ :: ss₀) with _ | ⟨s, rest⟩
      · have hlen := (sortIfManyT_perm (s₀ :: ss₀)).length_eq
        rw [e] at hlen
        simp at hlen
      · match hr : s.rest with
        | [] =>
          rw [mergeLoopEv_step_last e hr]
          intro hmem
          rcases List.mem_append.1 hmem with hmem | hmem
          · by_cases hp : prev = some s.token
            · rw [if_pos hp] at hmem
              exact absurd hmem (List.not_mem_nil _)
            · rw [if_neg hp] at hmem
              rw [List.mem_singleton] at hmem
              cases hmem
          · rcases List.mem_cons.1 hmem with hmem | hmem
            · cases hmem
            · exact ih rest (some s.token) f hmem
        | r :: rs =>
          rw [mergeLoopEv_step_more e hr]
          intro hmem
          rcases List.mem_append.1 hmem with hmem | hmem
          · by_cases hp : prev = some s.token
            · rw [if_pos hp] at hmem
              exact absurd hmem (List.not_mem_nil _)
            · rw [if_neg hp] at hmem
              rw [List.mem_singleton] at hmem
              cases hmem
          · exact ih (⟨s.tag, r, rs⟩ :: rest) (some s.token) f hmem

/-- An exhaustion event names the file of a live cursor. -/
theorem mergeLoopEv_exhaust_mem :
    ∀ (fuel : Nat) (ss : List TScanner) (prev : Option Record) (f : FTag),
      MEvent.exhaust f ∈ mergeLoopEv fuel ss prev → f ∈ ss.map TScanner.tag := by
  intro fuel
  induction fuel with
  | zero =>
    intro ss prev f h
    cases ss <;> simp [mergeLoopEv] at h
  | succ fuel ih =>
    intro ss prev f h
    match ss with
    | [] => simp [mergeLoopEv] at h
    | s₀ :: ss₀ =>
      rcases e : sortIfManyT (s₀ :: ss₀) with _ | ⟨s, rest⟩
      · have hlen := (sortIfManyT_perm (s₀ :: ss₀)).length_eq
        rw [e] at hlen
        simp at hlen
      · have htags : ∀ g, g ∈ (s :: rest).map TScanner.tag →
            g ∈ (s₀ :: ss₀).map TScanner.tag := by
          intro g hg
          rcases List.mem_map.1 hg with ⟨s', hs', rfl⟩
          exact List.mem_map_of_mem _ ((sortIfManyT_perm (s₀ :: ss₀)).mem_iff.1
            (e ▸ hs'))
        match hr : s.rest with
        | [] =>
          rw [mergeLoopEv_step_last e hr] at h
          rcases List.mem_append.1 h with h | h
          · by_cases hp : prev = some s.token
            · rw [if_pos hp] at h
              exact absurd h (List.not_mem_nil _)
            · rw [if_neg hp] at h
              rw [List.mem_singleton] at h
              cases h
          · rcases List.mem_cons.1 h with h | h
            · injection h with h'
              subst h'
              exact htags s.tag (List.mem_map_of_mem _ (List.mem_cons_self _ _))
            · have := ih rest (some s.token) f h
              exact htags f (by
                rcases List.mem_map.1 this with ⟨s', hs', rfl⟩
                exact List.mem_map_of_mem _ (List.mem_cons_of_mem _ hs'))
        | r :: rs =>
          rw [mergeLoopEv_step_more e hr] at h
          rcases List.mem_append.1 h with h | h
          · by_cases hp : prev = some s.token
            · rw [if_pos hp] at h
              exact absurd h (List.not_mem_nil _)
            · rw [if_neg hp] at h
              rw [List.mem_singleton] at h
              cases h
          · have := ih (⟨s.tag, r, rs⟩ :: rest) (some s.token) f h
            rcases List.mem_map.1 this with ⟨s', hs', rfl⟩
            rcases List.mem_cons.1 hs' with h2 | hs''
            · rw [h2]
              exact htags s.tag (List.mem_map_of_mem _ (List.mem_cons_self _ _))
            · exact htags s'.tag
                (List.mem_map_of_mem _ (List.mem_cons_of_mem _ hs''))

end DedupGo

namespace DedupGo

theorem count_exhaust_out (f : FTag) (p : Prop) [Decidable p] (x : Record) :
    List.count (MEvent.exhaust f)
      (if p then ([] : List MEvent) else [MEvent.emit x]) = 0 := by
  split <;> simp [List.count_cons, List.count_nil]

/-- When the chunk files are pairwise distinct, each cursor is
exhausted — and removed from the live slice — at most once. -/
theorem mergeLoopEv_exhaust_once :
    ∀ (fuel : Nat) (ss : List TScanner) (prev : Option Record),
      (ss.map TScanner.tag).Nodup →
      ∀ f, List.count (MEvent.exhaust f) (mergeLoopEv fuel ss prev) ≤ 1 := by
  intro fuel
  induction fuel with
  | zero =>
    intro ss prev _ f
    cases ss <;> simp [mergeLoopEv]
  | succ fuel ih =>
    intro ss prev hnd f
    match ss with
    | [] => simp [mergeLoopEv]
    | s₀ :: ss₀ =>
      rcases e : sortIfManyT (s₀ :: ss₀) with _ | ⟨s, rest⟩
      · have hlen := (sortIfManyT_perm (s₀ :: ss₀)).length_eq
        rw [e] at hlen
        simp at hlen
      · have hperm : List.Perm (s :: rest) (s₀ :: ss₀) := by
          rw [← e]; exact sortIfManyT_perm _
        have hnd' : ((s :: rest).map TScanner.tag).Nodup :=
          ((hperm.map TScanner.tag).nodup_iff).2 hnd
        rw [List.map_cons, List.nodup_cons] at hnd'
        match hr : s.rest with
        | [] =>
          rw [mergeLoopEv_step_last e hr, List.count_append, count_exhaust_out,
            Nat.zero_add, List.count_cons]
          by_cases hf : f = s.tag
          · have hzero :
                List.count (MEvent.exhaust f) (mergeLoopEv fuel rest (some s.token)) = 0 := by
              rw [List.count_eq_zero]
              intro hmem
              exact hnd'.1 (hf ▸ mergeLoopEv_exhaust_mem fuel rest (some s.token) f hmem)
            have hbe : (MEvent.exhaust s.tag == MEvent.exhaust f) = true := by
              simp [hf]
            rw [hzero, hbe]
            simp
          · have hbe : (MEvent.exhaust s.tag == MEvent.exhaust f) = false := by
              simp only [beq_eq_false_iff_ne, ne_eq]
              intro h
              injection h with h2
              exact hf h2.symm
            rw [hbe]
            simpa using ih rest (some s.token) hnd'.2 f
        | r :: rs =>
          rw [mergeLoopEv_step_more e hr, List.count_append, count_exhaust_out,
            Nat.zero_add]
          have hnd₂ : (((⟨s.tag, r, rs⟩ : TScanner) :: rest).map TScanner.tag).Nodup := by
            rw [List.map_cons, List.nodup_cons]
            exact hnd'
          exact ih (⟨s.tag, r, rs⟩ :: rest) (some s.token) hnd₂ f

end DedupGo

/-- C8 counterexample: merging the two singleton chunks `a` (file
`temp 0`) and `b` (file `temp 1`), the first cursor is exhausted and
removed right after `a` is emitted, the merge then continues and emits
`b` — yet no deletion of `temp 0` (or of any file) ever occurs in the
merge trace, contradicting the claim that the chunk file is released
and deleted at the moment its cursor is exhausted. -/
theorem claim_C8_counterexample :
    mergeEvents [⟨FTag.temp 0, [97], []⟩, ⟨FTag.temp 1, [98], []⟩] =
        [MEvent.emit [97], MEvent.exhaust (FTag.temp 0),
          MEvent.emit [98], MEvent.exhaust (FTag.temp 1)] ∧
      MEvent.exhaust (FTag.temp 0) ∈
        mergeEvents [⟨FTag.temp 0, [97], []⟩, ⟨FTag.temp 1, [98], []⟩] ∧
      MEvent.deleteFile (FTag.temp 0) ∉
        mergeEvents [⟨FTag.temp 0, [97], []⟩, ⟨FTag.temp 1, [98], []⟩] :=
  ⟨rfl, by decide, by decide⟩

/-- C8 (amended): when a cursor is exhausted it is removed from the
live set at that moment — each distinct chunk file is exhausted at most
once and its cursor never acts again — but its chunk file is *not*
deleted then: the merge stage performs no file deletion at all, and
temporary chunks are deleted only afterwards by `Dedup`'s deferred
cleanup. -/
theorem claim_C8_amended_no_eager_delete (fuel : Nat) (ss : List TScanner)
    (prev : Option Record) :
    (∀ f, MEvent.deleteFile f ∉ mergeLoopEv fuel ss prev) ∧
      ((ss.map TScanner.tag).Nodup →
        ∀ f, List.count (MEvent.exhaust f) (mergeLoopEv fuel ss prev) ≤ 1) :=
  ⟨fun f => mergeLoopEv_no_delete fuel ss prev f,
    fun hnd f => mergeLoopEv_exhaust_once fuel ss prev hnd f⟩

/-- Witness for the amended C8 on the concrete two-chunk merge. -/
theorem claim_C8_amended_no_eager_delete_witness :
    MEvent.deleteFile (FTag.temp 0) ∉
        mergeLoopEv 2 [⟨FTag.temp 0, [97], []⟩, ⟨FTag.temp 1, [98], []⟩] none ∧
      List.count (MEvent.exhaust (FTag.temp 0))
          (mergeLoopEv 2 [⟨FTag.temp 0, [97], []⟩, ⟨FTag.temp 1, [98], []⟩] none) ≤ 1 :=
  ⟨(claim_C8_amended_no_eager_delete 2
      [⟨FTag.temp 0, [97], []⟩, ⟨FTag.temp 1, [98], []⟩] none).1 (FTag.temp 0),
    (claim_C8_amended_no_eager_delete 2
      [⟨FTag.temp 0, [97], []⟩, ⟨FTag.temp 1, [98], []⟩] none).2 (by decide)
      (FTag.temp 0)⟩
